import Mathlib

set_option maxRecDepth 100000
set_option maxHeartbeats 1000000

/-!
Shallow embedding of `src/polyomino.cpp` (timmy3000/polyomino).

The C++ program enumerates polyominoes of size N.  Its core pieces are:
* `Point` — an integer pair ordered lexicographically (x, then y);
* `Polyomino` — a vector of points kept in normalized form (translated so
  the minimum x and minimum y are 0, then sorted);
* `ShapeNormalizer::getCanonical` — the lexicographically smallest element
  of the variant list (4 rotations, plus 4 rotations of the horizontal
  reflection when the enumeration type is "free" or "one-sided");
* `ShapeGenerator::getExtensions` — all one-cell growths of a shape;
* `ShapeGenerator::enumerate` — level-by-level growth from the single cell,
  deduplicating canonical forms with a set at each level.

Polyomino values are modelled as `List Point`; the class invariant
("cells is always normalized") becomes the predicate `IsNormalized`.
`std::set` is modelled as a duplicate-free list (sorted for the candidate
set in `getExtensions`, insertion-ordered for the per-level shape sets —
only membership and cardinality of those sets are ever observed).
-/

namespace PolyominoCpp

/-- Source `struct Point`: integer coordinates, compared lexicographically
(`x < other.x || (x == other.x && y < other.y)`). -/
structure Point where
  x : Int
  y : Int
deriving DecidableEq, Repr

/-- The lexicographic linear order of `Point::operator<`. -/
instance : LinearOrder Point :=
  LinearOrder.lift' (fun p => (toLex (p.x, p.y) : Int ×ₗ Int))
    (fun p q h => by
      cases p; cases q
      simpa [Prod.ext_iff] using h)

/-- Source `Point::operator+`: componentwise addition. -/
instance : Add Point :=
  ⟨fun p q => ⟨p.x + q.x, p.y + q.y⟩⟩

theorem Point.add_def (p q : Point) : p + q = ⟨p.x + q.x, p.y + q.y⟩ := rfl

/-- Source `ShapeGenerator::directions`: up, down, left, right. -/
def directions : List Point := [⟨0, 1⟩, ⟨0, -1⟩, ⟨1, 0⟩, ⟨-1, 0⟩]

/-- Source `Polyomino::normalize`: translate so the minimum x and minimum y
become 0 (minima are folded starting from `cells[0]` over all cells, as in
the C++ loop), then sort; an empty cell list is returned unchanged. -/
def normalize (cells : List Point) : List Point :=
  match cells with
  | [] => []
  | c :: rest =>
    let all := c :: rest
    let mx := all.foldl (fun m p => min m p.x) c.x
    let my := all.foldl (fun m p => min m p.y) c.y
    List.insertionSort (· ≤ ·) (all.map (fun p => Point.mk (p.x - mx) (p.y - my)))

/-- The `Polyomino` class invariant: the stored cell list is normalized
(every constructor and mutator of the class re-normalizes). -/
def IsNormalized (cells : List Point) : Prop := normalize cells = cells

instance (cells : List Point) : Decidable (IsNormalized cells) := by
  unfold IsNormalized; infer_instance

/-- Source `Polyomino::addCell`: push the new cell, then re-normalize. -/
def addCell (poly : List Point) (p : Point) : List Point :=
  normalize (poly ++ [p])

/-- The coordinate map of `Polyomino::rotate`: (x, y) ↦ (y, −x). -/
def rotateMap (p : Point) : Point := ⟨p.y, -p.x⟩

/-- Source `Polyomino::rotate`: rotate every cell 90° clockwise and
re-normalize (the result goes through the normalizing constructor). -/
def rotate (s : List Point) : List Point := normalize (s.map rotateMap)

/-- The coordinate map of `Polyomino::reflect`: (x, y) ↦ (−x, y). -/
def reflectMap (p : Point) : Point := ⟨-p.x, p.y⟩

/-- Source `Polyomino::reflect`: mirror horizontally and re-normalize. -/
def reflect (s : List Point) : List Point := normalize (s.map reflectMap)

/-- The variant list built by `ShapeNormalizer::getCanonical`: the four
rotations of the shape, and — when the enumeration type is "free" or
"one-sided" — also the four rotations of the reflected shape. -/
def variants (t : String) (shape : List Point) : List (List Point) :=
  let rots := [shape, rotate shape, rotate (rotate shape),
    rotate (rotate (rotate shape))]
  if t = "free" ∨ t = "one-sided" then
    let r := reflect shape
    rots ++ [r, rotate r, rotate (rotate r), rotate (rotate (rotate r))]
  else
    rots

/-- Source `ShapeNormalizer::getCanonical`: the lexicographically smallest
variant (`std::min_element`; the variant list starts with `shape` itself,
so folding `min` from `shape` computes the same minimum). -/
def getCanonical (t : String) (shape : List Point) : List Point :=
  (variants t shape).foldl min shape

/-- Source `ShapeGenerator::getExtensions`: collect every 4-neighbour of an
occupied cell that is not itself occupied into a `std::set<Point>`
(modelled as the sorted duplicate-free list), then grow the shape by each
candidate in turn via `addCell`. -/
def getExtensions (poly : List Point) : List (List Point) :=
  let raw := poly.flatMap (fun cell => directions.map (fun d => cell + d))
  let fresh := raw.filter (fun c => !decide (c ∈ poly))
  let candidates := List.insertionSort (· ≤ ·) fresh.dedup
  candidates.map (fun c => addCell poly c)

/-- `std::set` insertion: a no-op when the element is already present. -/
def setInsert (s : List (List Point)) (x : List Point) : List (List Point) :=
  if x ∈ s then s else s ++ [x]

/-- One growth step of `ShapeGenerator::enumerate`: canonicalize every
extension of every shape of the current level and insert it into the next
level's set. -/
def nextLevel (t : String) (shapes : List (List Point)) : List (List Point) :=
  shapes.foldl (fun acc shape =>
    (getExtensions shape).foldl (fun acc2 ext => setInsert acc2 (getCanonical t ext)) acc) []

/-- The total number of (non-deduplicated) growths generated from a level:
the contribution of one level to the source's `total_generated` counter. -/
def totalGrowths (shapes : List (List Point)) : Nat :=
  (shapes.map (fun s => (getExtensions s).length)).sum

/-- `shapes_by_size` in `ShapeGenerator::enumerate`: level 1 is the single
cell at the origin, and each later level is grown from the previous one. -/
def shapesBySize (t : String) : Nat → List (List Point)
  | 0 => []
  | 1 => [normalize [⟨0, 0⟩]]
  | (k + 2) => nextLevel t (shapesBySize t (k + 1))

/-- Source `ShapeGenerator::enumerate` for `config.N = N` and
`config.type = t` (valid configurations have `N ≥ 1`): the loop grows
levels 1..N and returns level N. -/
def enumerate (N : Nat) (t : String) : List (List Point) :=
  shapesBySize t N

/-! ### Generic facts about folding `min` over a list -/

section MinFold

variable {α : Type*} [LinearOrder α]

theorem foldl_min_le_init (l : List α) (a : α) : l.foldl min a ≤ a := by
  induction l generalizing a with
  | nil => exact le_refl a
  | cons c l ih =>
    exact le_trans (ih (min a c)) (min_le_left a c)

theorem foldl_min_le_mem {l : List α} {b : α} (hb : b ∈ l) (a : α) :
    l.foldl min a ≤ b := by
  induction l generalizing a with
  | nil => cases hb
  | cons c l ih =>
    rcases List.mem_cons.mp hb with h | h
    · subst h
      exact le_trans (foldl_min_le_init l (min a b)) (min_le_right a b)
    · exact ih h (min a c)

theorem foldl_min_mem (l : List α) (a : α) : l.foldl min a = a ∨ l.foldl min a ∈ l := by
  induction l generalizing a with
  | nil => exact Or.inl rfl
  | cons c l ih =>
    rcases ih (min a c) with h | h
    · rcases le_total a c with hac | hca
      · rw [List.foldl_cons, h, min_eq_left hac]
        exact Or.inl rfl
      · rw [List.foldl_cons, h, min_eq_right hca]
        exact Or.inr (List.mem_cons_self c l)
    · exact Or.inr (List.mem_cons_of_mem c h)

theorem le_foldl_min {l : List α} {a c : α} (h1 : c ≤ a) (h2 : ∀ b ∈ l, c ≤ b) :
    c ≤ l.foldl min a := by
  induction l generalizing a with
  | nil => exact h1
  | cons d l ih =>
    exact ih (le_min h1 (h2 d (List.mem_cons_self d l)))
      (fun b hb => h2 b (List.mem_cons_of_mem d hb))

/-- The fold-from-a-member minimum depends only on the membership set. -/
theorem foldl_min_set_congr {l₁ l₂ : List α} {a b : α} (ha : a ∈ l₁) (hb : b ∈ l₂)
    (h : ∀ x, x ∈ l₁ ↔ x ∈ l₂) : l₁.foldl min a = l₂.foldl min b := by
  have mem₁ : l₁.foldl min a ∈ l₁ := by
    rcases foldl_min_mem l₁ a with h' | h'
    · rw [h']; exact ha
    · exact h'
  have mem₂ : l₂.foldl min b ∈ l₂ := by
    rcases foldl_min_mem l₂ b with h' | h'
    · rw [h']; exact hb
    · exact h'
  refine le_antisymm ?_ ?_
  · exact le_foldl_min (foldl_min_le_mem ((h b).mpr hb) a)
      (fun x hx => foldl_min_le_mem ((h x).mpr hx) a)
  · exact le_foldl_min (foldl_min_le_mem ((h a).mp ha) b)
      (fun x hx => foldl_min_le_mem ((h x).mp hx) b)

theorem foldl_min_add_const (l : List Int) (a k : Int) :
    (l.map (· + k)).foldl min (a + k) = l.foldl min a + k := by
  induction l generalizing a with
  | nil => rfl
  | cons c l ih =>
    simp only [List.map_cons, List.foldl_cons, min_add_add_right]
    exact ih (min a c)

end MinFold

/-! ### Structure of `normalize` -/

/-- Translation of every cell by a fixed vector. -/
def translate (v : Point) (l : List Point) : List Point := l.map (· + v)

/-- The sort used by `normalize` (`std::sort` with `Point::operator<`). -/
def sortPts (l : List Point) : List Point := List.insertionSort (· ≤ ·) l

theorem sortPts_perm (l : List Point) : (sortPts l).Perm l :=
  List.perm_insertionSort _ l

theorem sortPts_sorted (l : List Point) : List.Sorted (· ≤ ·) (sortPts l) :=
  List.sorted_insertionSort _ l

theorem sortPts_congr {l₁ l₂ : List Point} (h : l₁.Perm l₂) : sortPts l₁ = sortPts l₂ :=
  List.eq_of_perm_of_sorted (((sortPts_perm l₁).trans h).trans (sortPts_perm l₂).symm)
    (sortPts_sorted l₁) (sortPts_sorted l₂)

theorem normalize_nil : normalize [] = [] := rfl

/-- `normalize` of a nonempty list is the sort of a translate of the list
(subtracting the minima is adding their negations). -/
theorem normalize_cons_eq (c : Point) (rest : List Point) :
    normalize (c :: rest) =
      sortPts (translate
        ⟨-((c :: rest).foldl (fun m p => min m p.x) c.x),
         -((c :: rest).foldl (fun m p => min m p.y) c.y)⟩ (c :: rest)) := by
  show sortPts ((c :: rest).map _) = sortPts ((c :: rest).map _)
  refine congrArg sortPts ?_
  refine List.map_congr_left (fun p _ => ?_)
  show Point.mk _ _ = p + _
  rw [Point.add_def]
  refine congrArg₂ Point.mk ?_ ?_ <;> ring

theorem normalize_eq_sort_translate (c : Point) (rest : List Point) :
    ∃ v : Point, normalize (c :: rest) = sortPts (translate v (c :: rest)) :=
  ⟨_, normalize_cons_eq c rest⟩

theorem normalize_perm_translate (c : Point) (rest : List Point) :
    ∃ v : Point, (normalize (c :: rest)).Perm (translate v (c :: rest)) := by
  obtain ⟨v, hv⟩ := normalize_eq_sort_translate c rest
  exact ⟨v, hv ▸ sortPts_perm _⟩

theorem translate_length (v : Point) (l : List Point) :
    (translate v l).length = l.length := List.length_map l _

theorem normalize_length (l : List Point) : (normalize l).length = l.length := by
  cases l with
  | nil => rfl
  | cons c rest =>
    obtain ⟨v, hv⟩ := normalize_perm_translate c rest
    rw [hv.length_eq, translate_length]

/-- The minimum-x fold of `normalize`, as a fold over the projected list. -/
theorem foldl_minx_eq_map (l : List Point) (a : Int) :
    l.foldl (fun m p => min m p.x) a = (l.map Point.x).foldl min a :=
  (List.foldl_map _ _ _ _).symm

theorem foldl_miny_eq_map (l : List Point) (a : Int) :
    l.foldl (fun m p => min m p.y) a = (l.map Point.y).foldl min a :=
  (List.foldl_map _ _ _ _).symm

/-- `normalize` depends only on the multiset of cells. -/
theorem normalize_perm_congr {l₁ l₂ : List Point} (h : l₁.Perm l₂) :
    normalize l₁ = normalize l₂ := by
  cases l₁ with
  | nil => rw [h.symm.eq_nil]
  | cons c₁ r₁ =>
    cases l₂ with
    | nil => cases h.eq_nil
    | cons c₂ r₂ =>
      have hx : (c₁ :: r₁).foldl (fun m p => min m p.x) c₁.x
          = (c₂ :: r₂).foldl (fun m p => min m p.x) c₂.x := by
        rw [foldl_minx_eq_map, foldl_minx_eq_map]
        exact foldl_min_set_congr
          (List.mem_map_of_mem Point.x (List.mem_cons_self c₁ r₁))
          (List.mem_map_of_mem Point.x (List.mem_cons_self c₂ r₂))
          (fun x => (h.map Point.x).mem_iff)
      have hy : (c₁ :: r₁).foldl (fun m p => min m p.y) c₁.y
          = (c₂ :: r₂).foldl (fun m p => min m p.y) c₂.y := by
        rw [foldl_miny_eq_map, foldl_miny_eq_map]
        exact foldl_min_set_congr
          (List.mem_map_of_mem Point.y (List.mem_cons_self c₁ r₁))
          (List.mem_map_of_mem Point.y (List.mem_cons_self c₂ r₂))
          (fun x => (h.map Point.y).mem_iff)
      rw [normalize_cons_eq c₁ r₁, normalize_cons_eq c₂ r₂, hx, hy]
      exact sortPts_congr (h.map _)

/-- Translating every cell leaves the normalized form unchanged. -/
theorem normalize_translate (v : Point) (l : List Point) :
    normalize (translate v l) = normalize l := by
  cases l with
  | nil => rfl
  | cons c rest =>
    have hx : (translate v (c :: rest)).foldl (fun m p => min m p.x) (c + v).x
        = (c :: rest).foldl (fun m p => min m p.x) c.x + v.x := by
      have e2 : (translate v (c :: rest)).map Point.x
          = ((c :: rest).map Point.x).map (· + v.x) := by
        show ((c :: rest).map _).map _ = _
        rw [List.map_map, List.map_map]
        rfl
      rw [foldl_minx_eq_map, e2]
      simp only [Point.add_def]
      rw [foldl_min_add_const, foldl_minx_eq_map]
    have hy : (translate v (c :: rest)).foldl (fun m p => min m p.y) (c + v).y
        = (c :: rest).foldl (fun m p => min m p.y) c.y + v.y := by
      have e2 : (translate v (c :: rest)).map Point.y
          = ((c :: rest).map Point.y).map (· + v.y) := by
        show ((c :: rest).map _).map _ = _
        rw [List.map_map, List.map_map]
        rfl
      rw [foldl_miny_eq_map, e2]
      simp only [Point.add_def]
      rw [foldl_min_add_const, foldl_miny_eq_map]
    have hv : translate v (c :: rest) = (c + v) :: translate v rest := rfl
    rw [hv, normalize_cons_eq (c + v) (translate v rest), ← hv, hx, hy,
      normalize_cons_eq c rest]
    refine congrArg sortPts ?_
    show ((c :: rest).map _).map _ = (c :: rest).map _
    rw [List.map_map]
    refine List.map_congr_left (fun p _ => ?_)
    show (p + v) + Point.mk _ _ = p + Point.mk _ _
    rw [Point.add_def, Point.add_def, Point.add_def]
    refine congrArg₂ Point.mk ?_ ?_ <;> dsimp only <;> ring

theorem normalize_idem (l : List Point) : normalize (normalize l) = normalize l := by
  cases l with
  | nil => rfl
  | cons c rest =>
    obtain ⟨v, hv⟩ := normalize_eq_sort_translate c rest
    calc normalize (normalize (c :: rest))
        = normalize (translate v (c :: rest)) :=
          normalize_perm_congr (hv ▸ sortPts_perm _)
      _ = normalize (c :: rest) := normalize_translate v _

theorem isNormalized_normalize (l : List Point) : IsNormalized (normalize l) :=
  normalize_idem l

/-- Normalizing first does not change the normalized image under a map that
commutes with translation. -/
theorem normalize_map_normalize (T : Point → Point)
    (hT : ∀ p q : Point, T (p + q) = T p + T q) (l : List Point) :
    normalize ((normalize l).map T) = normalize (l.map T) := by
  cases l with
  | nil => rfl
  | cons c rest =>
    obtain ⟨v, hv⟩ := normalize_eq_sort_translate c rest
    have hperm : ((normalize (c :: rest)).map T).Perm
        ((translate v (c :: rest)).map T) := (hv ▸ sortPts_perm _).map T
    have hsw : (translate v (c :: rest)).map T = translate (T v) ((c :: rest).map T) := by
      show ((c :: rest).map _).map T = ((c :: rest).map T).map _
      rw [List.map_map, List.map_map]
      exact List.map_congr_left (fun p _ => hT p v)
    rw [normalize_perm_congr hperm, hsw, normalize_translate]

/-! ### The symmetry group acting on normalized shapes -/

theorem rotateMap_add (p q : Point) : rotateMap (p + q) = rotateMap p + rotateMap q := by
  simp [rotateMap, Point.add_def, neg_add]
  omega

theorem reflectMap_add (p q : Point) : reflectMap (p + q) = reflectMap p + reflectMap q := by
  simp [reflectMap, Point.add_def, neg_add]
  omega

theorem rotate_comp (F : Point → Point) (s : List Point) :
    rotate (normalize (s.map F)) = normalize (s.map (fun p => rotateMap (F p))) := by
  rw [rotate, normalize_map_normalize rotateMap rotateMap_add, List.map_map]
  rfl

theorem reflect_comp (F : Point → Point) (s : List Point) :
    reflect (normalize (s.map F)) = normalize (s.map (fun p => reflectMap (F p))) := by
  rw [reflect, normalize_map_normalize reflectMap reflectMap_add, List.map_map]
  rfl

theorem isNormalized_rotate (s : List Point) : IsNormalized (rotate s) :=
  normalize_idem _

theorem isNormalized_reflect (s : List Point) : IsNormalized (reflect s) :=
  normalize_idem _

/-- Four 90° rotations return a normalized shape to itself. -/
theorem rotate_four {s : List Point} (hs : IsNormalized s) :
    rotate (rotate (rotate (rotate s))) = s := by
  have e1 : rotate s = normalize (s.map (fun p => rotateMap p)) := rfl
  rw [e1, rotate_comp, rotate_comp, rotate_comp]
  have e2 : (fun p => rotateMap (rotateMap (rotateMap (rotateMap p)))) = fun p : Point => p := by
    funext p
    simp [rotateMap]
  rw [e2, List.map_id']
  exact hs

/-- Reflecting twice returns a normalized shape to itself. -/
theorem reflect_reflect {s : List Point} (hs : IsNormalized s) :
    reflect (reflect s) = s := by
  have e1 : reflect s = normalize (s.map (fun p => reflectMap p)) := rfl
  rw [e1, reflect_comp]
  have e2 : (fun p => reflectMap (reflectMap p)) = fun p : Point => p := by
    funext p
    simp [reflectMap]
  rw [e2, List.map_id']
  exact hs

/-- The dihedral relation: reflecting a rotation is the triple rotation of
the reflection. -/
theorem reflect_rotate (s : List Point) :
    reflect (rotate s) = rotate (rotate (rotate (reflect s))) := by
  have e1 : rotate s = normalize (s.map (fun p => rotateMap p)) := rfl
  have e2 : reflect s = normalize (s.map (fun p => reflectMap p)) := rfl
  rw [e1, reflect_comp, e2, rotate_comp, rotate_comp, rotate_comp]
  have e3 : (fun p : Point => reflectMap (rotateMap p))
      = fun p : Point => rotateMap (rotateMap (rotateMap (reflectMap p))) := by
    funext p
    simp [rotateMap, reflectMap]
  rw [e3]

/-! ### Invariance of the canonical form -/

theorem mem_variants_self (t : String) (s : List Point) : s ∈ variants t s := by
  unfold variants
  split <;> simp

/-- Rotating a normalized shape permutes its variant orbit. -/
theorem variants_rotate_iff (t : String) {s : List Point} (hs : IsNormalized s) :
    ∀ x, x ∈ variants t (rotate s) ↔ x ∈ variants t s := by
  intro x
  have e4 : rotate (rotate (rotate (rotate s))) = s := rotate_four hs
  have efr : reflect (rotate s) = rotate (rotate (rotate (reflect s))) := reflect_rotate s
  have e4f : rotate (rotate (rotate (rotate (reflect s)))) = reflect s :=
    rotate_four (isNormalized_reflect s)
  unfold variants
  split <;>
    simp only [List.mem_append, List.mem_cons, List.not_mem_nil, or_false,
      e4, efr, e4f] <;>
    tauto

/-- Reflecting a normalized shape permutes its variant orbit when the mode
includes reflections. -/
theorem variants_reflect_iff {t : String} (hcond : t = "free" ∨ t = "one-sided")
    {s : List Point} (hs : IsNormalized s) :
    ∀ x, x ∈ variants t (reflect s) ↔ x ∈ variants t s := by
  intro x
  have eff : reflect (reflect s) = s := reflect_reflect hs
  unfold variants
  rw [if_pos hcond, if_pos hcond]
  simp only [List.mem_append, List.mem_cons, List.not_mem_nil, or_false, eff]
  tauto

theorem getCanonical_mem (t : String) (s : List Point) :
    getCanonical t s ∈ variants t s := by
  rcases foldl_min_mem (variants t s) s with h | h
  · show (variants t s).foldl min s ∈ variants t s
    rw [h]
    exact mem_variants_self t s
  · exact h

theorem getCanonical_rotate (t : String) {s : List Point} (hs : IsNormalized s) :
    getCanonical t (rotate s) = getCanonical t s :=
  foldl_min_set_congr (mem_variants_self t (rotate s)) (mem_variants_self t s)
    (variants_rotate_iff t hs)

theorem getCanonical_reflect {t : String} (hcond : t = "free" ∨ t = "one-sided")
    {s : List Point} (hs : IsNormalized s) :
    getCanonical t (reflect s) = getCanonical t s :=
  foldl_min_set_congr (mem_variants_self t (reflect s)) (mem_variants_self t s)
    (variants_reflect_iff hcond hs)

theorem isNormalized_rotate_iter (n : Nat) (u : List Point) (hu : IsNormalized u) :
    IsNormalized (rotate^[n] u) := by
  induction n with
  | zero => exact hu
  | succ n ih =>
    rw [Function.iterate_succ_apply']
    exact isNormalized_rotate _

theorem getCanonical_rotate_iter (t : String) (n : Nat) (u : List Point)
    (hu : IsNormalized u) : getCanonical t (rotate^[n] u) = getCanonical t u := by
  induction n with
  | zero => rfl
  | succ n ih =>
    rw [Function.iterate_succ_apply',
      getCanonical_rotate t (isNormalized_rotate_iter n u hu), ih]

/-- Every member of the variant orbit of a normalized shape has the same
canonical form as the shape itself. -/
theorem getCanonical_variants_inv (t : String) {s : List Point} (hs : IsNormalized s) :
    ∀ x ∈ variants t s, getCanonical t x = getCanonical t s := by
  intro x hx
  have h1 : getCanonical t (rotate s) = getCanonical t s := getCanonical_rotate t hs
  have h2 : getCanonical t (rotate (rotate s)) = getCanonical t s := by
    rw [getCanonical_rotate t (isNormalized_rotate s), h1]
  have h3 : getCanonical t (rotate (rotate (rotate s))) = getCanonical t s := by
    rw [getCanonical_rotate t (isNormalized_rotate _), h2]
  unfold variants at hx
  by_cases hcond : t = "free" ∨ t = "one-sided"
  · rw [if_pos hcond] at hx
    have hf : getCanonical t (reflect s) = getCanonical t s :=
      getCanonical_reflect hcond hs
    have hf1 : getCanonical t (rotate (reflect s)) = getCanonical t s := by
      rw [getCanonical_rotate t (isNormalized_reflect s), hf]
    have hf2 : getCanonical t (rotate (rotate (reflect s))) = getCanonical t s := by
      rw [getCanonical_rotate t (isNormalized_rotate _), hf1]
    have hf3 : getCanonical t (rotate (rotate (rotate (reflect s)))) = getCanonical t s := by
      rw [getCanonical_rotate t (isNormalized_rotate _), hf2]
    simp only [List.mem_append, List.mem_cons, List.not_mem_nil, or_false] at hx
    rcases hx with (rfl | rfl | rfl | rfl) | (rfl | rfl | rfl | rfl)
    exacts [rfl, h1, h2, h3, hf, hf1, hf2, hf3]
  · rw [if_neg hcond] at hx
    simp only [List.mem_cons, List.not_mem_nil, or_false] at hx
    rcases hx with rfl | rfl | rfl | rfl
    exacts [rfl, h1, h2, h3]

/-! ### Claim theorems: canonicalization modes and counts -/

/-- C1 (code bug evidence): under mode "fixed" (spec mode `None`, documented
as applying no transforms), `getCanonical` still folds the four rotations:
on the normalized horizontal domino it returns the vertical domino, a shape
different from its input, contradicting the documented `None` semantics. -/
theorem fixed_mode_folds_rotations :
    IsNormalized [Point.mk 0 0, Point.mk 1 0] ∧
    getCanonical "fixed" [Point.mk 0 0, Point.mk 1 0] = [Point.mk 0 0, Point.mk 0 1] ∧
    getCanonical "fixed" [Point.mk 0 0, Point.mk 1 0] ≠ [Point.mk 0 0, Point.mk 1 0] := by
  refine ⟨by decide, by decide, by decide⟩

/-- C2 (code bug evidence): enumeration under mode "fixed" does not keep all
orientations distinct: it returns 1 shape for N = 2 (the claim requires 2)
and 2 shapes for N = 3 (the claim requires 6), because rotations are folded. -/
theorem enumerate_fixed_counts :
    (enumerate 2 "fixed").length = 1 ∧ (enumerate 3 "fixed").length = 2 := by
  refine ⟨by decide, by decide⟩

/-- C3 (code bug evidence): enumeration under mode "one-sided" returns 5
shapes for N = 4, not the 7 one-sided tetrominoes the claim requires,
because `getCanonical` also folds reflections for "one-sided". -/
theorem enumerate_one_sided_count_n4 : (enumerate 4 "one-sided").length = 5 := by
  decide

/-- C4: the canonicalizer configured with "one-sided" is extensionally equal
to the canonicalizer configured with "free": the reflection branch of
`getCanonical` is taken for both enumeration types. -/
theorem getCanonical_one_sided_eq_free (s : List Point) :
    getCanonical "one-sided" s = getCanonical "free" s := by
  unfold getCanonical variants
  norm_num

/-- C5: enumeration under mode "free" (rotations and reflections folded)
matches the known free polyomino counts for N = 1, 2, 4, 5. -/
theorem enumerate_free_counts :
    (enumerate 1 "free").length = 1 ∧ (enumerate 2 "free").length = 1 ∧
    (enumerate 4 "free").length = 5 ∧ (enumerate 5 "free").length = 12 := by
  exact ⟨by decide, by decide, by decide, by decide⟩

/-- C7: for every normalized shape and every transform in the group implied
by the mode — the identity for "fixed", the rotations for "one-sided", and
the rotations together with the rotated reflections for "free" — the
canonical form is unchanged. -/
theorem getCanonical_group_invariant (s : List Point) (hs : IsNormalized s) :
    getCanonical "fixed" s = getCanonical "fixed" s ∧
    (∀ n : Nat, getCanonical "one-sided" (rotate^[n] s) = getCanonical "one-sided" s) ∧
    (∀ n : Nat, getCanonical "free" (rotate^[n] s) = getCanonical "free" s) ∧
    (∀ n : Nat, getCanonical "free" (rotate^[n] (reflect s)) = getCanonical "free" s) ∧
    (∀ n : Nat, getCanonical "free" (reflect (rotate^[n] s)) = getCanonical "free" s) := by
  refine ⟨rfl, fun n => getCanonical_rotate_iter _ n s hs,
    fun n => getCanonical_rotate_iter _ n s hs, fun n => ?_, fun n => ?_⟩
  · rw [getCanonical_rotate_iter _ n (reflect s) (isNormalized_reflect s),
      getCanonical_reflect (Or.inl rfl) hs]
  · rw [getCanonical_reflect (Or.inl rfl) (isNormalized_rotate_iter n s hs),
      getCanonical_rotate_iter _ n s hs]

/-- Witness for C7 at the horizontal domino, mode "free", transform
rotate ∘ reflect. -/
theorem getCanonical_group_invariant_witness :
    IsNormalized [Point.mk 0 0, Point.mk 1 0] ∧
    getCanonical "free" (rotate^[1] (reflect [Point.mk 0 0, Point.mk 1 0]))
      = getCanonical "free" [Point.mk 0 0, Point.mk 1 0] :=
  ⟨by decide, (getCanonical_group_invariant [Point.mk 0 0, Point.mk 1 0] (by decide)).2.2.2.1 1⟩

/-- C8: canonicalization is idempotent for every enumeration type string
(in particular for "fixed", "one-sided" and "free"): the canonical form of
a normalized shape is itself a member of the shape's variant orbit, and all
orbit members share one canonical form. -/
theorem getCanonical_idem (t : String) (s : List Point) (hs : IsNormalized s) :
    getCanonical t (getCanonical t s) = getCanonical t s :=
  getCanonical_variants_inv t hs _ (getCanonical_mem t s)

/-- Witness for C8 at the horizontal domino, mode "free". -/
theorem getCanonical_idem_witness :
    IsNormalized [Point.mk 0 0, Point.mk 1 0] ∧
    getCanonical "free" (getCanonical "free" [Point.mk 0 0, Point.mk 1 0])
      = getCanonical "free" [Point.mk 0 0, Point.mk 1 0] :=
  ⟨by decide, getCanonical_idem "free" [Point.mk 0 0, Point.mk 1 0] (by decide)⟩

/-! ### Connectivity of extensions -/

/-- 4-adjacency, via the direction table of the generator. -/
def Adjacent (a b : Point) : Prop := ∃ d ∈ directions, a + d = b

/-- Edge-connectivity of a cell list: any two member cells are joined by a
chain of 4-adjacent member cells. -/
def Connected (l : List Point) : Prop :=
  ∀ a ∈ l, ∀ b ∈ l,
    Relation.ReflTransGen (fun p q => p ∈ l ∧ q ∈ l ∧ Adjacent p q) a b

theorem connected_singleton (p : Point) : Connected [p] := by
  intro a ha b hb
  rw [List.mem_singleton] at ha hb
  subst ha
  subst hb
  exact Relation.ReflTransGen.refl

theorem adjacent_symm {a b : Point} (h : Adjacent a b) : Adjacent b a := by
  rcases h with ⟨d, hd, rfl⟩
  obtain ⟨ax, ay⟩ := a
  simp only [directions, List.mem_cons, List.not_mem_nil, or_false] at hd
  rcases hd with rfl | rfl | rfl | rfl
  · refine ⟨⟨0, -1⟩, by decide, ?_⟩
    simp only [Point.add_def, Point.mk.injEq]
    omega
  · refine ⟨⟨0, 1⟩, by decide, ?_⟩
    simp only [Point.add_def, Point.mk.injEq]
    omega
  · refine ⟨⟨-1, 0⟩, by decide, ?_⟩
    simp only [Point.add_def, Point.mk.injEq]
    omega
  · refine ⟨⟨1, 0⟩, by decide, ?_⟩
    simp only [Point.add_def, Point.mk.injEq]
    omega

theorem adjacent_translate (v : Point) {a b : Point} (h : Adjacent a b) :
    Adjacent (a + v) (b + v) := by
  rcases h with ⟨d, hd, rfl⟩
  refine ⟨d, hd, ?_⟩
  obtain ⟨ax, ay⟩ := a
  obtain ⟨vx, vy⟩ := v
  obtain ⟨dx, dy⟩ := d
  simp only [Point.add_def, Point.mk.injEq]
  omega

theorem connected_of_perm {l l' : List Point} (h : l.Perm l') (hc : Connected l) :
    Connected l' := by
  intro a ha b hb
  refine (hc a (h.mem_iff.mpr ha) b (h.mem_iff.mpr hb)).mono ?_
  intro p q hpq
  exact ⟨h.mem_iff.mp hpq.1, h.mem_iff.mp hpq.2.1, hpq.2.2⟩

theorem connected_translate (v : Point) {l : List Point} (hc : Connected l) :
    Connected (translate v l) := by
  intro a ha b hb
  rcases List.mem_map.mp ha with ⟨a0, ha0, rfl⟩
  rcases List.mem_map.mp hb with ⟨b0, hb0, rfl⟩
  refine Relation.ReflTransGen.lift (fun p => p + v) ?_ (hc a0 ha0 b0 hb0)
  intro p q hpq
  exact ⟨List.mem_map_of_mem _ hpq.1, List.mem_map_of_mem _ hpq.2.1,
    adjacent_translate v hpq.2.2⟩

/-- Appending one cell adjacent to a member keeps the list connected. -/
theorem connected_append_adjacent {l : List Point} {a c : Point} (hc : Connected l)
    (ha : a ∈ l) (hadj : Adjacent a c) : Connected (l ++ [c]) := by
  have hsub : ∀ p q : Point, (p ∈ l ∧ q ∈ l ∧ Adjacent p q) →
      (p ∈ l ++ [c] ∧ q ∈ l ++ [c] ∧ Adjacent p q) :=
    fun p q h => ⟨List.mem_append_left _ h.1, List.mem_append_left _ h.2.1, h.2.2⟩
  have hcl : c ∈ l ++ [c] := List.mem_append_right _ (List.mem_singleton.mpr rfl)
  intro x hx y hy
  rcases List.mem_append.mp hx with hxl | hxc
  · rcases List.mem_append.mp hy with hyl | hyc
    · exact (hc x hxl y hyl).mono hsub
    · rw [List.mem_singleton] at hyc
      subst hyc
      refine Relation.ReflTransGen.tail ((hc x hxl a ha).mono hsub) ?_
      exact ⟨List.mem_append_left _ ha, hcl, hadj⟩
  · rw [List.mem_singleton] at hxc
    subst hxc
    rcases List.mem_append.mp hy with hyl | hyc
    · exact Relation.ReflTransGen.trans
        (Relation.ReflTransGen.single ⟨hcl, List.mem_append_left _ ha, adjacent_symm hadj⟩)
        ((hc a ha y hyl).mono hsub)
    · rw [List.mem_singleton] at hyc
      subst hyc
      exact Relation.ReflTransGen.refl

theorem connected_normalize {l : List Point} (hc : Connected l) :
    Connected (normalize l) := by
  cases l with
  | nil =>
    intro a ha b hb
    exact absurd ha (by simp [normalize_nil])
  | cons c rest =>
    obtain ⟨v, hv⟩ := normalize_eq_sort_translate c rest
    have hperm : (normalize (c :: rest)).Perm (translate v (c :: rest)) := by
      rw [hv]
      exact sortPts_perm _
    exact connected_of_perm hperm.symm (connected_translate v hc)

/-- C6: every shape produced by `getExtensions` from a connected input of
size ≥ 1 is connected, has exactly one more cell, and its cells are (after
the normalizing translation) exactly the input cells plus one fresh cell
4-adjacent to an input cell. -/
theorem getExtensions_spec (poly : List Point) (hconn : Connected poly)
    (hlen : 1 ≤ poly.length) :
    ∀ ext ∈ getExtensions poly,
      Connected ext ∧ ext.length = poly.length + 1 ∧
      ∃ c : Point, c ∉ poly ∧ (∃ a ∈ poly, ∃ d ∈ directions, a + d = c) ∧
        ∃ v : Point, ext.Perm (translate v (poly ++ [c])) := by
  intro ext hext
  unfold getExtensions at hext
  rcases List.mem_map.mp hext with ⟨c, hc, rfl⟩
  have hc2 : c ∈ ((poly.flatMap (fun cell => directions.map (fun d => cell + d))).filter
      (fun c => !decide (c ∈ poly))).dedup :=
    ((List.perm_insertionSort _ _).mem_iff).mp hc
  have hc3 := List.mem_dedup.mp hc2
  have hfilter := List.mem_filter.mp hc3
  have hfresh : c ∉ poly := by simpa using hfilter.2
  obtain ⟨a, hapoly, hcd⟩ := List.mem_flatMap.mp hfilter.1
  obtain ⟨d, hd, rfl⟩ := List.mem_map.mp hcd
  have hadj : Adjacent a (a + d) := ⟨d, hd, rfl⟩
  have hplus : Connected (poly ++ [a + d]) :=
    connected_append_adjacent hconn hapoly hadj
  refine ⟨connected_normalize hplus, ?_, ?_⟩
  · show (normalize (poly ++ [a + d])).length = poly.length + 1
    rw [normalize_length, List.length_append]
    rfl
  · obtain ⟨hd0, tl0, heq⟩ : ∃ h0 tl0, poly ++ [a + d] = h0 :: tl0 := by
      cases poly <;> exact ⟨_, _, rfl⟩
    obtain ⟨v, hv⟩ := normalize_eq_sort_translate hd0 tl0
    refine ⟨a + d, hfresh, ⟨a, hapoly, d, hd, rfl⟩, v, ?_⟩
    show (normalize (poly ++ [a + d])).Perm (translate v (poly ++ [a + d]))
    rw [heq, hv]
    exact sortPts_perm _

/-- Witness for C6: the single cell at the origin is connected, and its
extension by the cell to the right satisfies the guarantee. -/
theorem getExtensions_spec_witness :
    Connected [Point.mk 0 0] ∧
    (Connected [Point.mk 0 0, Point.mk 1 0] ∧
      ([Point.mk 0 0, Point.mk 1 0] : List Point).length
        = ([Point.mk 0 0] : List Point).length + 1 ∧
      ∃ c : Point, c ∉ [Point.mk 0 0] ∧
        (∃ a ∈ [Point.mk 0 0], ∃ d ∈ directions, a + d = c) ∧
        ∃ v : Point, ([Point.mk 0 0, Point.mk 1 0] : List Point).Perm
          (translate v ([Point.mk 0 0] ++ [c]))) :=
  ⟨connected_singleton _,
    getExtensions_spec [Point.mk 0 0] (connected_singleton _) (by decide)
      [Point.mk 0 0, Point.mk 1 0] (by decide)⟩

/-! ### Growth counting -/

theorem setInsert_length (s : List (List Point)) (x : List Point) :
    (setInsert s x).length ≤ s.length + 1 := by
  unfold setInsert
  split
  · exact Nat.le_succ _
  · simp

theorem foldl_setInsert_length (g : List Point → List Point)
    (l : List (List Point)) (acc : List (List Point)) :
    (l.foldl (fun a e => setInsert a (g e)) acc).length ≤ acc.length + l.length := by
  induction l generalizing acc with
  | nil => simp
  | cons e l ih =>
    have h1 := ih (setInsert acc (g e))
    have h2 := setInsert_length acc (g e)
    simp only [List.foldl_cons, List.length_cons]
    omega

/-- Each growth inserts at most one new canonical shape into the level set. -/
theorem nextLevel_length_le (t : String) (shapes : List (List Point)) :
    (nextLevel t shapes).length ≤ totalGrowths shapes := by
  unfold nextLevel totalGrowths
  suffices h : ∀ acc : List (List Point),
      (shapes.foldl (fun acc shape => (getExtensions shape).foldl
        (fun acc2 ext => setInsert acc2 (getCanonical t ext)) acc) acc).length
        ≤ acc.length + ((shapes.map (fun s => (getExtensions s).length)).sum) by
    simpa using h []
  induction shapes with
  | nil =>
    intro acc
    simp
  | cons s shapes ih =>
    intro acc
    have h1 := ih ((getExtensions s).foldl
      (fun acc2 ext => setInsert acc2 (getCanonical t ext)) acc)
    have h2 := foldl_setInsert_length (getCanonical t) (getExtensions s) acc
    simp only [List.foldl_cons, List.map_cons, List.sum_cons]
    omega

/-- C9: at every level k ≥ 1 of the enumeration, the total number of
(non-deduplicated) growths generated from the level-k shapes is at least
the number of unique canonical shapes in the level-(k+1) set. -/
theorem growths_ge_unique (t : String) (k : Nat) (hk : 1 ≤ k) :
    (shapesBySize t (k + 1)).length ≤ totalGrowths (shapesBySize t k) := by
  obtain ⟨j, rfl⟩ : ∃ j, k = j + 1 := ⟨k - 1, by omega⟩
  exact nextLevel_length_le t (shapesBySize t (j + 1))

/-- Witness for C9 at level 1 of the "free" enumeration. -/
theorem growths_ge_unique_witness :
    1 ≤ 1 ∧ (shapesBySize "free" 2).length ≤ totalGrowths (shapesBySize "free" 1) :=
  ⟨by decide, growths_ge_unique "free" 1 (by decide)⟩

/-! ### Shape construction invariants -/

/-- C10 counterexample: `normalize` (the body of the normalizing
constructor) does not remove duplicate cells — constructing from a list
that contains the origin twice keeps both copies. -/
theorem normalize_retains_duplicates :
    normalize [Point.mk 0 0, Point.mk 0 0] = [Point.mk 0 0, Point.mk 0 0] ∧
    ¬ (normalize [Point.mk 0 0, Point.mk 0 0]).Nodup :=
  ⟨by decide, by decide⟩

/-- C10 (amended): constructing a shape from an arbitrary nonempty list of
cells yields a cell list whose minimum x and minimum y are zero, sorted in
the lexicographic cell order; it is duplicate-free whenever the input list
is (duplicates in the input are retained, not removed). -/
theorem normalize_spec (l : List Point) (hl : l ≠ []) :
    (∀ p ∈ normalize l, 0 ≤ p.x ∧ 0 ≤ p.y) ∧
    (∃ p ∈ normalize l, p.x = 0) ∧ (∃ p ∈ normalize l, p.y = 0) ∧
    List.Sorted (· ≤ ·) (normalize l) ∧
    (l.Nodup → (normalize l).Nodup) := by
  cases l with
  | nil => exact absurd rfl hl
  | cons c rest =>
    have hv := normalize_cons_eq c rest
    set mx := (c :: rest).foldl (fun m p => min m p.x) c.x with hmx
    set my := (c :: rest).foldl (fun m p => min m p.y) c.y with hmy
    have hperm : (normalize (c :: rest)).Perm (translate ⟨-mx, -my⟩ (c :: rest)) := by
      rw [hv]
      exact sortPts_perm _
    have hmem : ∀ p, p ∈ normalize (c :: rest) ↔
        ∃ p0 ∈ (c :: rest), p0 + ⟨-mx, -my⟩ = p := by
      intro p
      rw [hperm.mem_iff]
      exact List.mem_map
    have hmx_le : ∀ p0 ∈ (c :: rest), mx ≤ p0.x := by
      intro p0 hp0
      rw [hmx, foldl_minx_eq_map]
      exact foldl_min_le_mem (List.mem_map_of_mem Point.x hp0) c.x
    have hmy_le : ∀ p0 ∈ (c :: rest), my ≤ p0.y := by
      intro p0 hp0
      rw [hmy, foldl_miny_eq_map]
      exact foldl_min_le_mem (List.mem_map_of_mem Point.y hp0) c.y
    have hmx_ex : ∃ p0 ∈ (c :: rest), p0.x = mx := by
      rw [hmx, foldl_minx_eq_map]
      rcases foldl_min_mem ((c :: rest).map Point.x) c.x with h | h
      · exact ⟨c, List.mem_cons_self c rest, h.symm⟩
      · rcases List.mem_map.mp h with ⟨p0, hp0, he⟩
        exact ⟨p0, hp0, he⟩
    have hmy_ex : ∃ p0 ∈ (c :: rest), p0.y = my := by
      rw [hmy, foldl_miny_eq_map]
      rcases foldl_min_mem ((c :: rest).map Point.y) c.y with h | h
      · exact ⟨c, List.mem_cons_self c rest, h.symm⟩
      · rcases List.mem_map.mp h with ⟨p0, hp0, he⟩
        exact ⟨p0, hp0, he⟩
    refine ⟨?_, ?_, ?_, ?_, ?_⟩
    · intro p hp
      rcases (hmem p).mp hp with ⟨p0, hp0, rfl⟩
      have h1 := hmx_le p0 hp0
      have h2 := hmy_le p0 hp0
      constructor
      · show (0 : Int) ≤ p0.x + -mx
        omega
      · show (0 : Int) ≤ p0.y + -my
        omega
    · rcases hmx_ex with ⟨p0, hp0, he⟩
      refine ⟨p0 + ⟨-mx, -my⟩, (hmem _).mpr ⟨p0, hp0, rfl⟩, ?_⟩
      show p0.x + -mx = 0
      omega
    · rcases hmy_ex with ⟨p0, hp0, he⟩
      refine ⟨p0 + ⟨-mx, -my⟩, (hmem _).mpr ⟨p0, hp0, rfl⟩, ?_⟩
      show p0.y + -my = 0
      omega
    · rw [hv]
      exact sortPts_sorted _
    · intro hnd
      have hinj : Function.Injective (· + (⟨-mx, -my⟩ : Point)) := by
        intro p q h
        have h1 : p.x + -mx = q.x + -mx := congrArg Point.x h
        have h2 : p.y + -my = q.y + -my := congrArg Point.y h
        obtain ⟨px, py⟩ := p
        obtain ⟨qx, qy⟩ := q
        dsimp only at h1 h2
        exact congrArg₂ Point.mk (by omega) (by omega)
      exact hperm.nodup_iff.mpr (hnd.map hinj)

/-- Witness for C10's amended claim at a concrete unnormalized list. -/
theorem normalize_spec_witness :
    ([Point.mk 5 7, Point.mk 2 3] : List Point) ≠ [] ∧
    ((∀ p ∈ normalize [Point.mk 5 7, Point.mk 2 3], 0 ≤ p.x ∧ 0 ≤ p.y) ∧
      (∃ p ∈ normalize [Point.mk 5 7, Point.mk 2 3], p.x = 0) ∧
      (∃ p ∈ normalize [Point.mk 5 7, Point.mk 2 3], p.y = 0) ∧
      List.Sorted (· ≤ ·) (normalize [Point.mk 5 7, Point.mk 2 3]) ∧
      (([Point.mk 5 7, Point.mk 2 3] : List Point).Nodup →
        (normalize [Point.mk 5 7, Point.mk 2 3]).Nodup)) :=
  ⟨by decide, normalize_spec [Point.mk 5 7, Point.mk 2 3] (by decide)⟩

end PolyominoCpp
